import Mathlib

/-!
Verification of the pretraining data-pipeline fragment of the notebook
`chapter_05_pretraining_on_unlabeled_data.ipynb`: the train/validation
corpus splitter, the windowed batch builder, the step-by-step loss
computation, the flattened cross-entropy computation, and the
text/token-id conversion utilities.

Corpora are modelled as `List Char`, token sequences as `List ℕ`,
ratios as exact rationals `ℚ`, and tensor arithmetic as exact real
arithmetic over `ℝ` lists.
-/

namespace Pretrain

/-- Python `int()` applied to an exact rational value: truncation toward
zero (floor for nonnegative arguments, ceiling for negative ones). -/
def pyInt (q : ℚ) : ℤ := if 0 ≤ q then ⌊q⌋ else ⌈q⌉

/-- Normalisation of a Python slice index for a sequence of length `n`: a
negative index counts from the end of the sequence; `List.take` and
`List.drop` then clamp out-of-range values exactly as Python slices do. -/
def pyIndex (i : ℤ) (n : ℕ) : ℕ := if i < 0 then ((n : ℤ) + i).toNat else i.toNat

/-- The split point `split_idx = int(train_ratio * len(text_data))` from
the train/validation cell of the notebook, generalised over the ratio `r`
(the notebook hardcodes `train_ratio = 0.90`). -/
def split_idx (r : ℚ) (n : ℕ) : ℤ := pyInt (r * n)

/-- The splitter `train_data = text_data[:split_idx]` and
`val_data = text_data[split_idx:]` from the train/validation cell of the
notebook. -/
def split (r : ℚ) (C : List Char) : List Char × List Char :=
  (C.take (pyIndex (split_idx r C.length) C.length),
   C.drop (pyIndex (split_idx r C.length) C.length))

/-- The splitter embedded as a fallible computation.  The source cell
performs no input validation and none of its operations (`int`, `*`,
`len`, slicing) can raise, so the computation always returns `ok`. -/
def splitE (r : ℚ) (C : List Char) : Except String (List Char × List Char) :=
  Except.ok (split r C)

/-- Modelled from the spec: the number of `(input, target)` window pairs the
windowed batch builder takes from a token sequence of length `n` with window
length `L` and stride `S` — start indices `i = 0, S, 2S, ...` while
`i + L + 1 ≤ n`.  The builder itself (`create_dataloader_v1` and its
underlying dataset class) lives in the sibling notebook
`chapter_02_dataset_creation`, which the analysed notebook imports but which
is not under `src/`. -/
def numWindows (n L S : ℕ) : ℕ := if n < L + 1 then 0 else (n - L - 1) / S + 1

/-- Modelled from the spec: the sequence of `(input_window, target_window)`
pairs produced by the windowed batch builder `create_dataloader_v1` (defined
in the sibling notebook `chapter_02_dataset_creation`, not under `src/`):
`input_window = tokens[i : i+L]` and `target_window = tokens[i+1 : i+L+1]`
for `i = 0, S, 2S, ...` while `i + L + 1 ≤ len tokens`. -/
def windowPairs (tokens : List ℕ) (L S : ℕ) : List (List ℕ × List ℕ) :=
  (List.range (numWindows tokens.length L S)).map fun j =>
    ((tokens.drop (j * S)).take L, (tokens.drop (j * S + 1)).take L)

/-- Softmax (`torch.softmax(logits, dim=-1)`) on one vocabulary row, in
exact real arithmetic. -/
noncomputable def softmaxRow (row : List ℝ) : List ℝ :=
  row.map fun x => Real.exp x / (row.map Real.exp).sum

/-- The probabilities `probas = torch.softmax(logits, dim=-1)` on a
(batch, positions, vocabulary) logits tensor. -/
noncomputable def probas (logits : List (List (List ℝ))) : List (List (List ℝ)) :=
  logits.map fun seq => seq.map softmaxRow

/-- The gather `target_probas_b = probas[batch_idx, [0, 1, 2], targets[batch_idx]]`:
for each position of one batch row, the probability assigned to the true
target token (the notebook hardcodes three positions; position indices are
generalised). -/
noncomputable def target_probas (pb : List (List ℝ)) (tb : List ℕ) : List ℝ :=
  List.zipWith (fun p t => p.getD t 0) pb tb

/-- The step-by-step loss of the notebook:
`log_probas = torch.log(torch.cat((target_probas_1, target_probas_2)))`
(concatenation over the batch), `avg_log_probas = torch.mean(log_probas)`,
`neg_avg_log_probas = avg_log_probas * -1`. -/
noncomputable def neg_avg_log_probas
    (logits : List (List (List ℝ))) (targets : List (List ℕ)) : ℝ :=
  -((((List.zipWith target_probas (probas logits) targets).flatten).map Real.log).sum /
    ((((List.zipWith target_probas (probas logits) targets).flatten).map Real.log).length : ℝ))

/-- One row of cross-entropy computed from raw logits via log-softmax:
log-sum-exp of the row minus the logit of the true target. -/
noncomputable def ceRow (row : List ℝ) (t : ℕ) : ℝ :=
  Real.log ((row.map Real.exp).sum) - row.getD t 0

/-- Exact-real semantics of `torch.nn.functional.cross_entropy` (mean
reduction) on `(N, V)` logits and `N` integer targets, as called in the
notebook on `logits.flatten(0, 1)` and `targets.flatten()`. -/
noncomputable def cross_entropy (rows : List (List ℝ)) (ts : List ℕ) : ℝ :=
  (List.zipWith ceRow rows ts).sum / ((List.zipWith ceRow rows ts).length : ℝ)

/-- The external subword tokenizer collaborator (`tiktoken.Encoding`):
`encode` maps text to token IDs (with the special `<|endoftext|>` marker
among the representable tokens, passed through unmodified), `decode` maps
token IDs back to text. -/
structure Tokenizer where
  encode : String → List ℕ
  decode : List ℕ → String

/-- Token-ID tensors occurring in the conversion utilities: 0-D
(scalar), 1-D (`torch.tensor(encoded)`), or 2-D (after `unsqueeze(0)`). -/
inductive Tensor where
  | scalar (x : ℕ)
  | vec (v : List ℕ)
  | mat (m : List (List ℕ))

/-- Squeeze (`torch.Tensor.squeeze(0)`): removes the leading dimension
exactly when its size is 1, otherwise returns the tensor unchanged. -/
def Tensor.squeeze0 : Tensor → Tensor
  | Tensor.mat [v] => Tensor.vec v
  | Tensor.mat m => Tensor.mat m
  | Tensor.vec [x] => Tensor.scalar x
  | Tensor.vec v => Tensor.vec v
  | Tensor.scalar x => Tensor.scalar x

/-- The function `text_to_token_ids` from the notebook: the declared
default for the tokenizer parameter is `None` and, despite the body
comment, no default tokenizer is ever instantiated, so `tokenizer.encode`
fails on `None` (modelled as `none`); with a tokenizer, the encoded IDs
are wrapped with the batch dimension
(`torch.tensor(encoded).unsqueeze(0)`). -/
def text_to_token_ids (text : String) (tokenizer : Option Tokenizer) : Option Tensor :=
  match tokenizer with
  | none => none
  | some tok => some (Tensor.mat [tok.encode text])

/-- The function `token_ids_to_text` from the notebook: again no default
tokenizer is created, so `tokenizer.decode` fails on `None`; with a
tokenizer the batch dimension is removed (`token_ids.squeeze(0)`) and the
flat ID list decoded (`tokenizer.decode(flat.tolist())`, which only
succeeds on a 1-D tensor). -/
def token_ids_to_text (token_ids : Tensor) (tokenizer : Option Tokenizer) : Option String :=
  match tokenizer with
  | none => none
  | some tok =>
    match token_ids.squeeze0 with
    | Tensor.vec v => some (tok.decode v)
    | _ => none

/-- A concrete round-tripping tokenizer over character codes, used as a
witness instance of the external collaborator contract. -/
def charTokenizer : Tokenizer :=
  ⟨fun s => s.data.map Char.toNat, fun l => String.mk (l.map Char.ofNat)⟩

theorem split_concat (r : ℚ) (C : List Char) :
    (split r C).1 ++ (split r C).2 = C := by
  simp [split]

theorem split_idx_eq_floor (r : ℚ) (n : ℕ) (h : 0 ≤ r) :
    split_idx r n = ⌊r * (n : ℚ)⌋ := by
  unfold split_idx pyInt
  rw [if_pos (mul_nonneg h (by positivity))]

theorem pyIndex_of_nonneg {i : ℤ} (h : 0 ≤ i) (n : ℕ) : pyIndex i n = i.toNat := by
  unfold pyIndex
  rw [if_neg (by omega)]

theorem floor_mul_le (r : ℚ) (n : ℕ) (h1 : r ≤ 1) :
    ⌊r * (n : ℚ)⌋ ≤ (n : ℤ) := by
  calc ⌊r * (n : ℚ)⌋ ≤ ⌊((n : ℕ) : ℚ)⌋ :=
        Int.floor_le_floor (mul_le_of_le_one_left (by positivity) h1)
    _ = (n : ℤ) := Int.floor_natCast n

/-- C1: for every corpus `C` and ratio `r ∈ (0,1)`, the two results of the
splitter concatenate back to the original corpus exactly. -/
theorem train_val_concat (C : List Char) (r : ℚ) (h0 : 0 < r) (h1 : r < 1) :
    (split r C).1 ++ (split r C).2 = C :=
  split_concat r C

/-- Witness for C1 at `r = 1/2` and the two-character corpus `ab`. -/
theorem train_val_concat_witness :
    (0 : ℚ) < 1/2 ∧ (1/2 : ℚ) < 1 ∧
      (split (1/2) ['a', 'b']).1 ++ (split (1/2) ['a', 'b']).2 = ['a', 'b'] :=
  ⟨by norm_num, by norm_num,
    train_val_concat ['a', 'b'] (1/2) (by norm_num) (by norm_num)⟩

/-- C4 counterexample: on the empty corpus with the in-range ratio `1/2`
the splitter succeeds and returns a (pair of empty) result instead of
failing with an invalid-argument error, since the source performs no
validation. -/
theorem splitE_empty_corpus_succeeds :
    splitE (1/2) [] = Except.ok ([], []) := by
  simp [splitE, split]

/-- C4 amended: the splitter never fails.  The source contains no
validation, so for every ratio (including ratios outside `(0,1)`) and
every corpus (including the empty corpus) it returns the prefix/suffix
pair, whose concatenation is the corpus; it never signals
invalid-argument. -/
theorem splitE_never_fails (r : ℚ) (C : List Char) :
    splitE r C = Except.ok (split r C) ∧ (split r C).1 ++ (split r C).2 = C :=
  ⟨rfl, split_concat r C⟩

theorem floor_nine_tenths_20479 : ⌊(9 / 10 : ℚ) * ((20479 : ℕ) : ℚ)⌋ = 18431 := by
  rw [Int.floor_eq_iff]
  push_cast
  norm_num

/-- C5: for `r ∈ (0,1)` the training text is exactly the prefix of length
`⌊r * len C⌋` and the validation text the remaining suffix; for a
20479-character corpus and `r = 9/10` the lengths are 18431 and 2048. -/
theorem split_prefix_suffix (C : List Char) (r : ℚ) (h0 : 0 < r) (h1 : r < 1) :
    (split r C).1 = C.take (⌊r * (C.length : ℚ)⌋).toNat ∧
    (split r C).2 = C.drop (⌊r * (C.length : ℚ)⌋).toNat ∧
    (split r C).1.length = (⌊r * (C.length : ℚ)⌋).toNat ∧
    (split r C).2.length = C.length - (⌊r * (C.length : ℚ)⌋).toNat ∧
    (C.length = 20479 → r = 9 / 10 →
      (split r C).1.length = 18431 ∧ (split r C).2.length = 2048) := by
  have hfl : split_idx r C.length = ⌊r * (C.length : ℚ)⌋ :=
    split_idx_eq_floor r C.length (le_of_lt h0)
  have hnn : 0 ≤ ⌊r * (C.length : ℚ)⌋ :=
    Int.floor_nonneg.mpr (mul_nonneg (le_of_lt h0) (by positivity))
  have hidx : pyIndex (split_idx r C.length) C.length = (⌊r * (C.length : ℚ)⌋).toNat := by
    rw [hfl, pyIndex_of_nonneg hnn]
  have hle : (⌊r * (C.length : ℚ)⌋).toNat ≤ C.length := by
    have := floor_mul_le r C.length (le_of_lt h1)
    omega
  have e1 : (split r C).1 = C.take (⌊r * (C.length : ℚ)⌋).toNat := by
    simp [split, hidx]
  have e2 : (split r C).2 = C.drop (⌊r * (C.length : ℚ)⌋).toNat := by
    simp [split, hidx]
  have l1 : (split r C).1.length = (⌊r * (C.length : ℚ)⌋).toNat := by
    rw [e1, List.length_take, Nat.min_eq_left hle]
  have l2 : (split r C).2.length = C.length - (⌊r * (C.length : ℚ)⌋).toNat := by
    rw [e2, List.length_drop]
  refine ⟨e1, e2, l1, l2, ?_⟩
  intro hC hr
  subst hr
  rw [l1, l2, hC, floor_nine_tenths_20479]
  omega

/-- Witness for C5 at `r = 9/10` and a concrete 20479-character corpus. -/
theorem split_prefix_suffix_witness :
    (0 : ℚ) < 9 / 10 ∧ (9 / 10 : ℚ) < 1 ∧
      ((split (9 / 10) (List.replicate 20479 'a')).1 =
        (List.replicate 20479 'a').take (⌊(9 / 10 : ℚ) * ((List.replicate 20479 'a').length : ℚ)⌋).toNat ∧
      (split (9 / 10) (List.replicate 20479 'a')).2 =
        (List.replicate 20479 'a').drop (⌊(9 / 10 : ℚ) * ((List.replicate 20479 'a').length : ℚ)⌋).toNat ∧
      (split (9 / 10) (List.replicate 20479 'a')).1.length =
        (⌊(9 / 10 : ℚ) * ((List.replicate 20479 'a').length : ℚ)⌋).toNat ∧
      (split (9 / 10) (List.replicate 20479 'a')).2.length =
        (List.replicate 20479 'a').length -
          (⌊(9 / 10 : ℚ) * ((List.replicate 20479 'a').length : ℚ)⌋).toNat ∧
      ((List.replicate 20479 'a').length = 20479 → (9 / 10 : ℚ) = 9 / 10 →
        (split (9 / 10) (List.replicate 20479 'a')).1.length = 18431 ∧
        (split (9 / 10) (List.replicate 20479 'a')).2.length = 2048)) :=
  ⟨by norm_num, by norm_num,
    split_prefix_suffix (List.replicate 20479 'a') (9 / 10) (by norm_num) (by norm_num)⟩

/-- C6 counterexample: at the in-range ratio `1/4` and a 2-character
corpus the split index is `0`, violating the claimed invariant
`0 < split_idx`. -/
theorem split_idx_positive_fails :
    (0 : ℚ) < 1 / 4 ∧ (1 / 4 : ℚ) < 1 ∧
      ¬ 0 < split_idx (1 / 4) (['a', 'b'] : List Char).length := by
  refine ⟨by norm_num, by norm_num, ?_⟩
  have h : split_idx (1 / 4) (['a', 'b'] : List Char).length = 0 := by
    rw [split_idx_eq_floor _ _ (by norm_num)]
    have h2 : (((['a', 'b'] : List Char).length : ℕ) : ℚ) = 2 := by norm_num
    rw [h2, Int.floor_eq_iff]
    norm_num
  rw [h]
  omega

/-- C6 amended: the invariant `0 < split_idx < len C` (and hence that
both split parts are non-empty) holds for ratios `r ∈ (0,1)` whenever
additionally `1 ≤ r * len C`; for smaller products the index degenerates
to `0` (see the counterexample). -/
theorem split_idx_bounds (C : List Char) (r : ℚ) (h0 : 0 < r) (h1 : r < 1)
    (h2 : 1 ≤ r * (C.length : ℚ)) :
    0 < split_idx r C.length ∧ split_idx r C.length < (C.length : ℤ) ∧
      (split r C).1 ≠ [] ∧ (split r C).2 ≠ [] := by
  have hfl : split_idx r C.length = ⌊r * (C.length : ℚ)⌋ :=
    split_idx_eq_floor r C.length (le_of_lt h0)
  have hnpos : 0 < C.length := by
    by_contra h
    have hz : C.length = 0 := by omega
    rw [hz] at h2
    norm_num at h2
  have hlow : (1 : ℤ) ≤ ⌊r * (C.length : ℚ)⌋ := by
    rw [Int.le_floor]
    exact_mod_cast h2
  have hup : ⌊r * (C.length : ℚ)⌋ < (C.length : ℤ) := by
    rw [Int.floor_lt]
    have : r * (C.length : ℚ) < 1 * (C.length : ℚ) :=
      mul_lt_mul_of_pos_right h1 (by exact_mod_cast hnpos)
    push_cast
    linarith
  have hidx : pyIndex (split_idx r C.length) C.length = (⌊r * (C.length : ℚ)⌋).toNat := by
    rw [hfl, pyIndex_of_nonneg (by omega)]
  refine ⟨by omega, by omega, ?_, ?_⟩
  · rw [split]
    simp only [hidx]
    rw [Ne, List.take_eq_nil_iff]
    push_neg
    constructor
    · omega
    · intro h
      rw [h] at hnpos
      simp at hnpos
  · rw [split]
    simp only [hidx]
    rw [Ne, List.drop_eq_nil_iff]
    omega

/-- Witness for C6 (amended) at `r = 1/2` and the corpus `ab`. -/
theorem split_idx_bounds_witness :
    (0 : ℚ) < 1 / 2 ∧ (1 / 2 : ℚ) < 1 ∧
      1 ≤ (1 / 2 : ℚ) * ((['a', 'b'] : List Char).length : ℚ) ∧
      (0 < split_idx (1 / 2) (['a', 'b'] : List Char).length ∧
        split_idx (1 / 2) (['a', 'b'] : List Char).length < ((['a', 'b'] : List Char).length : ℤ) ∧
        (split (1 / 2) ['a', 'b']).1 ≠ [] ∧ (split (1 / 2) ['a', 'b']).2 ≠ []) :=
  ⟨by norm_num, by norm_num, by norm_num,
    split_idx_bounds ['a', 'b'] (1 / 2) (by norm_num) (by norm_num) (by norm_num)⟩

theorem getD_drop (l : List ℕ) (m k d : ℕ) :
    (l.drop m).getD k d = l.getD (m + k) d := by
  simp [List.getD_eq_getElem?_getD, List.getElem?_drop]

theorem getD_take_of_lt (l : List ℕ) {n k : ℕ} (h : k < n) (d : ℕ) :
    (l.take n).getD k d = l.getD k d := by
  simp [List.getD_eq_getElem?_getD, List.getElem?_take_of_lt h]

/-- C7: when the token sequence is shorter than `L + 1` the windowed batch
builder yields no pairs at all (and, being a total function, cannot raise). -/
theorem windowPairs_short_empty (tokens : List ℕ) (L S : ℕ)
    (h : tokens.length < L + 1) : windowPairs tokens L S = [] := by
  simp [windowPairs, numWindows, h]

/-- Witness for C7: a 2-token sequence with window length 5 yields nothing. -/
theorem windowPairs_short_empty_witness :
    ([1, 2] : List ℕ).length < 5 + 1 ∧ windowPairs [1, 2] 5 1 = [] :=
  ⟨by decide, windowPairs_short_empty [1, 2] 5 1 (by decide)⟩

/-- C2: every pair emitted by the windowed batch builder starts at a stride
multiple `i = j * S` with `i + L + 1 ≤ len T`, its input is `T[i : i+L]`,
its target `T[i+1 : i+L+1]`, the target is the input shifted by one
(`target[k] = input[k+1]` for `k + 1 < L`), `target[L-1]` is the token of
`T` immediately following the input window; and conversely every such
stride-multiple start index yields its pair. -/
theorem windowPairs_shift (T : List ℕ) (L S : ℕ) (hS : 0 < S) (hL : 0 < L) :
    (∀ x y, (x, y) ∈ windowPairs T L S →
      ∃ j, j * S + L + 1 ≤ T.length ∧
        x = (T.drop (j * S)).take L ∧
        y = (T.drop (j * S + 1)).take L ∧
        (∀ k, k + 1 < L → y.getD k 0 = x.getD (k + 1) 0) ∧
        y.getD (L - 1) 0 = T.getD (j * S + L) 0) ∧
    (∀ j, j * S + L + 1 ≤ T.length →
      ((T.drop (j * S)).take L, (T.drop (j * S + 1)).take L) ∈ windowPairs T L S) := by
  constructor
  · intro x y hmem
    rcases List.mem_map.mp hmem with ⟨j, hjr, heq⟩
    rw [List.mem_range] at hjr
    have hx : x = (T.drop (j * S)).take L := (congrArg Prod.fst heq).symm
    have hy : y = (T.drop (j * S + 1)).take L := (congrArg Prod.snd heq).symm
    have hbound : j * S + L + 1 ≤ T.length := by
      unfold numWindows at hjr
      by_cases hc : T.length < L + 1
      · rw [if_pos hc] at hjr
        omega
      · rw [if_neg hc] at hjr
        push_neg at hc
        have hj2 : j ≤ (T.length - L - 1) / S := by omega
        have := (Nat.le_div_iff_mul_le hS).mp hj2
        omega
    refine ⟨j, hbound, hx, hy, ?_, ?_⟩
    · intro k hk
      rw [hx, hy, getD_take_of_lt _ (by omega), getD_take_of_lt _ hk,
        getD_drop, getD_drop]
      have harith : j * S + 1 + k = j * S + (k + 1) := by omega
      rw [harith]
    · rw [hy, getD_take_of_lt _ (by omega), getD_drop]
      have harith : j * S + 1 + (L - 1) = j * S + L := by omega
      rw [harith]
  · intro j hj
    refine List.mem_map.mpr ⟨j, List.mem_range.mpr ?_, rfl⟩
    unfold numWindows
    rw [if_neg (by omega)]
    have hj2 : j * S ≤ T.length - L - 1 := by omega
    have := (Nat.le_div_iff_mul_le hS).mpr hj2
    omega

/-- Witness for C2 on the token sequence `[10, 11, 12, 13]` with `L = 2`
and `S = 1`. -/
theorem windowPairs_shift_witness :
    0 < 1 ∧ 0 < 2 ∧
      (∀ x y, (x, y) ∈ windowPairs [10, 11, 12, 13] 2 1 →
        ∃ j, j * 1 + 2 + 1 ≤ ([10, 11, 12, 13] : List ℕ).length ∧
          x = (([10, 11, 12, 13] : List ℕ).drop (j * 1)).take 2 ∧
          y = (([10, 11, 12, 13] : List ℕ).drop (j * 1 + 1)).take 2 ∧
          (∀ k, k + 1 < 2 → y.getD k 0 = x.getD (k + 1) 0) ∧
          y.getD (2 - 1) 0 = ([10, 11, 12, 13] : List ℕ).getD (j * 1 + 2) 0) ∧
      (∀ j, j * 1 + 2 + 1 ≤ ([10, 11, 12, 13] : List ℕ).length →
        ((([10, 11, 12, 13] : List ℕ).drop (j * 1)).take 2,
          (([10, 11, 12, 13] : List ℕ).drop (j * 1 + 1)).take 2) ∈
            windowPairs [10, 11, 12, 13] 2 1) :=
  ⟨by decide, by decide,
    (windowPairs_shift [10, 11, 12, 13] 2 1 (by decide) (by decide)).1,
    (windowPairs_shift [10, 11, 12, 13] 2 1 (by decide) (by decide)).2⟩

theorem sum_exp_pos (row : List ℝ) (h : row ≠ []) : 0 < (row.map Real.exp).sum := by
  cases row with
  | nil => exact absurd rfl h
  | cons a tl =>
    simp only [List.map_cons, List.sum_cons]
    have h1 : 0 ≤ (tl.map Real.exp).sum := by
      refine List.sum_nonneg fun x hx => ?_
      rcases List.mem_map.mp hx with ⟨y, _, rfl⟩
      exact le_of_lt (Real.exp_pos y)
    have h2 := Real.exp_pos a
    linarith

theorem softmaxRow_getD (row : List ℝ) (t : ℕ) (h : t < row.length) :
    (softmaxRow row).getD t 0 = Real.exp (row.getD t 0) / (row.map Real.exp).sum := by
  have hlen : t < (softmaxRow row).length := by
    simpa [softmaxRow] using h
  rw [List.getD_eq_getElem _ _ hlen, List.getD_eq_getElem _ _ h]
  simp [softmaxRow]

theorem log_softmax_entry (row : List ℝ) (t : ℕ) (h : t < row.length) :
    Real.log ((softmaxRow row).getD t 0) = -(ceRow row t) := by
  have hne : row ≠ [] := by
    intro hx
    rw [hx] at h
    simp at h
  have hS := sum_exp_pos row hne
  rw [softmaxRow_getD row t h, ceRow,
    Real.log_div (Real.exp_ne_zero _) (ne_of_gt hS), Real.log_exp]
  ring

theorem target_log_eq_neg_ce (lb : List (List ℝ)) (tb : List ℕ)
    (h : List.Forall₂ (fun (row : List ℝ) (t : ℕ) => t < row.length) lb tb) :
    (target_probas (lb.map softmaxRow) tb).map Real.log
      = (List.zipWith ceRow lb tb).map (fun z => -z) := by
  induction h with
  | nil => simp [target_probas]
  | @cons row t lb' tb' hrt htail ih =>
    simp only [target_probas, List.map_cons, List.zipWith_cons_cons] at ih ⊢
    rw [log_softmax_entry row t hrt, ih]

theorem flatten_log_eq (logits : List (List (List ℝ))) (targets : List (List ℕ))
    (H : List.Forall₂ (fun (lb : List (List ℝ)) (tb : List ℕ) =>
      List.Forall₂ (fun (row : List ℝ) (t : ℕ) => t < row.length) lb tb) logits targets) :
    ((List.zipWith target_probas (probas logits) targets).flatten).map Real.log
      = (List.zipWith ceRow logits.flatten targets.flatten).map (fun z => -z) := by
  induction H with
  | nil => simp
  | @cons lb tb logits' targets' hhead htail ih =>
    have hlen : lb.length = tb.length := List.Forall₂.length_eq hhead
    simp only [probas, List.map_cons, List.zipWith_cons_cons, List.flatten_cons] at ih ⊢
    rw [List.zipWith_append _ _ _ _ _ hlen, List.map_append, List.map_append,
      target_log_eq_neg_ce lb tb hhead, ih]

theorem sum_map_neg_eq (l : List ℝ) : (l.map fun z => -z).sum = -l.sum := by
  induction l with
  | nil => simp
  | cons a tl ih =>
    simp only [List.map_cons, List.sum_cons, ih]
    ring

/-- C3: the step-by-step loss of the notebook (softmax over the
vocabulary, gather the true-target probabilities, log, mean over all
batch × position entries, negate) equals, in exact real arithmetic, the
cross-entropy computed from the raw logits via log-softmax on the
flattened tensors. -/
theorem step_loss_eq_cross_entropy
    (logits : List (List (List ℝ))) (targets : List (List ℕ))
    (H : List.Forall₂ (fun (lb : List (List ℝ)) (tb : List ℕ) =>
      List.Forall₂ (fun (row : List ℝ) (t : ℕ) => t < row.length) lb tb) logits targets) :
    neg_avg_log_probas logits targets = cross_entropy logits.flatten targets.flatten := by
  unfold neg_avg_log_probas cross_entropy
  rw [flatten_log_eq logits targets H, List.length_map, sum_map_neg_eq, neg_div, neg_neg]

/-- Witness for C3 on a 1 × 1 × 2 logits tensor with target token 0. -/
theorem step_loss_eq_cross_entropy_witness :
    List.Forall₂ (fun (lb : List (List ℝ)) (tb : List ℕ) =>
      List.Forall₂ (fun (row : List ℝ) (t : ℕ) => t < row.length) lb tb)
      [[[(0 : ℝ), 1]]] [[0]] ∧
    neg_avg_log_probas [[[(0 : ℝ), 1]]] [[0]]
      = cross_entropy ([[[(0 : ℝ), 1]]] : List (List (List ℝ))).flatten ([[0]] : List (List ℕ)).flatten :=
  ⟨List.Forall₂.cons (List.Forall₂.cons (by norm_num) List.Forall₂.nil) List.Forall₂.nil,
    step_loss_eq_cross_entropy [[[(0 : ℝ), 1]]] [[0]]
      (List.Forall₂.cons (List.Forall₂.cons (by norm_num) List.Forall₂.nil) List.Forall₂.nil)⟩

theorem ceRow_of_prob_one (row : List ℝ) (t : ℕ) (hlt : t < row.length)
    (hp : (softmaxRow row).getD t 0 = 1) : ceRow row t = 0 := by
  have hne : row ≠ [] := by
    intro hx
    rw [hx] at hlt
    simp at hlt
  have hS := sum_exp_pos row hne
  rw [softmaxRow_getD row t hlt, div_eq_one_iff_eq (ne_of_gt hS)] at hp
  rw [ceRow, ← hp, Real.log_exp]
  ring

theorem ceRow_replicate (V : ℕ) (c : ℝ) (t : ℕ) (hV : 0 < V) (ht : t < V) :
    ceRow (List.replicate V c) t = Real.log V := by
  have h3 : (List.replicate V c).getD t 0 = c := by
    rw [List.getD_eq_getElem _ _ (by simpa using ht)]
    simp
  rw [ceRow, h3, List.map_replicate, List.sum_replicate, nsmul_eq_mul,
    Real.log_mul (Nat.cast_ne_zero.mpr (by omega)) (Real.exp_ne_zero c), Real.log_exp]
  ring

theorem zipWith_replicate_left_map (f : List ℝ → ℕ → ℝ) (r : List ℝ) (ts : List ℕ) :
    List.zipWith f (List.replicate ts.length r) ts = ts.map (f r) := by
  induction ts with
  | nil => rfl
  | cons t ts' ih => simp [List.replicate_succ, ih]

/-- C8: degenerate loss-evaluator cases.  If the softmax of the model
assigns probability exactly 1 to every true target token the cross-entropy
loss is 0; on the uniform distribution over a vocabulary of size `V` (all
logits equal) the loss is `log V`. -/
theorem cross_entropy_degenerate :
    (∀ (rows : List (List ℝ)) (ts : List ℕ),
      List.Forall₂ (fun (row : List ℝ) (t : ℕ) =>
        t < row.length ∧ (softmaxRow row).getD t 0 = 1) rows ts →
      cross_entropy rows ts = 0) ∧
    (∀ (V n : ℕ) (c : ℝ) (ts : List ℕ), 0 < V → 0 < n → ts.length = n →
      (∀ t ∈ ts, t < V) →
      cross_entropy (List.replicate n (List.replicate V c)) ts = Real.log V) := by
  constructor
  · intro rows ts H
    have hzero : ∀ x ∈ List.zipWith ceRow rows ts, x = 0 := by
      induction H with
      | nil => simp
      | @cons row t rows' ts' hh htail ih =>
        intro x hx
        rw [List.zipWith_cons_cons] at hx
        rcases List.mem_cons.mp hx with h1 | h2
        · rw [h1]
          exact ceRow_of_prob_one row t hh.1 hh.2
        · exact ih x h2
    rw [cross_entropy, List.sum_eq_zero hzero, zero_div]
  · intro V n c ts hV hn hlen hts
    subst hlen
    rw [cross_entropy, zipWith_replicate_left_map]
    have hall : ∀ x ∈ ts.map (ceRow (List.replicate V c)), x = Real.log V := by
      intro x hx
      rcases List.mem_map.mp hx with ⟨t, ht, rfl⟩
      exact ceRow_replicate V c t hV (hts t ht)
    rw [List.sum_eq_card_nsmul _ _ hall, List.length_map, nsmul_eq_mul,
      mul_div_cancel_left₀ _ (Nat.cast_ne_zero.mpr (show ts.length ≠ 0 by omega))]

/-- Witness for C8: probability-1 case on a one-token vocabulary, uniform
case on a two-token vocabulary. -/
theorem cross_entropy_degenerate_witness :
    cross_entropy [[(0 : ℝ)]] [0] = 0 ∧
    cross_entropy (List.replicate 1 (List.replicate 2 (0 : ℝ))) [0] = Real.log (2 : ℕ) :=
  ⟨cross_entropy_degenerate.1 [[(0 : ℝ)]] [0]
      (List.Forall₂.cons
        ⟨by norm_num, by simp [softmaxRow, Real.exp_zero]⟩ List.Forall₂.nil),
    cross_entropy_degenerate.2 2 1 0 [0] (by norm_num) (by norm_num) (by norm_num)
      (by intro t ht; simp at ht; omega)⟩

/-- C9: for any text on which the external tokenizer round-trips (its
contract for texts made of representable tokens, the `<|endoftext|>`
marker included), decoding the encoding returns the original text: the
added batch dimension (`unsqueeze(0)`) is exactly removed again
(`squeeze(0)`). -/
theorem encode_decode_roundtrip (text : String) (tok : Tokenizer)
    (h : tok.decode (tok.encode text) = text) :
    (text_to_token_ids text (some tok)).bind
      (fun ids => token_ids_to_text ids (some tok)) = some text :=
  congrArg some h

/-- Witness for C9 with the character-code tokenizer on the text `ab`. -/
theorem encode_decode_roundtrip_witness :
    charTokenizer.decode (charTokenizer.encode "ab") = "ab" ∧
    (text_to_token_ids "ab" (some charTokenizer)).bind
      (fun ids => token_ids_to_text ids (some charTokenizer)) = some "ab" :=
  ⟨by decide, encode_decode_roundtrip "ab" charTokenizer (by decide)⟩

/-- C10: neither conversion function ever instantiates a default
tokenizer: with `none` both fail and return no result, and a supplied
tokenizer makes `text_to_token_ids` always return a result — a non-`none`
tokenizer is a precondition for returning at all. -/
theorem tokenizer_is_required :
    (∀ text, text_to_token_ids text none = none) ∧
    (∀ ids, token_ids_to_text ids none = none) ∧
    (∀ text tok, (text_to_token_ids text (some tok)).isSome = true) :=
  ⟨fun _ => rfl, fun _ => rfl, fun _ _ => rfl⟩

end Pretrain
